import Mathlib

set_option linter.unusedVariables false

/-!
Shallow embedding of the `quintans/pool` Go library (files `cond.go` and
`pool.go`) and verification of its natural-language specification.

Resources are opaque and tracked by identity; we model identities as natural
numbers handed out by a fresh counter (`nextId`), mirroring Go pointer
identity.  Timestamps and durations are integers (Go `time.Time` /
`time.Duration` are integer nanoseconds).  The two Go maps `locked` and
`unlocked` are association lists whose insert deletes the key first, matching
Go map overwrite semantics.  Caller-supplied callbacks are modelled by
oracles: `vres` gives the validation result per resource identity, and `e`
says whether the j-th construction call (counted by `createCount`) fails.
The destruction callback is modelled by recording the identity in
`destroyed` (order of calls preserved).
-/

/-- State of the cancellable gate (source: `Cond` in `cond.go`).
`gen` numbers the current channel `ch` (each `make(chan struct, 0)`
is a new generation); `closed` is the source's `closed` flag. -/
structure Cond where
  gen : Nat
  closed : Bool
  deriving DecidableEq

/-- Source `NewCond`: fresh channel, flag down. -/
def NewCond : Cond := { gen := 0, closed := false }

/-- The state-mutating half of source `Cond.Wait`: under the internal lock,
if `closed` then rotate to a fresh channel and clear the flag; capture the
current channel (`ch := s.ch`).  Returns the new state and the captured
generation; the caller then blocks on the captured channel. -/
def Cond.wait (s : Cond) : Cond × Nat :=
  if s.closed then ({ gen := s.gen + 1, closed := false }, s.gen + 1)
  else (s, s.gen)

/-- Source `Cond.Broadcast`: no-op if the flag is up, otherwise raise the
flag and close the current channel. -/
def Cond.broadcast (s : Cond) : Cond :=
  if s.closed then s else { s with closed := true }

/-- Whether the channel of generation `g` has been closed in state `s`.
A rotation (in `Cond.wait`) only ever happens from a `closed = true` state,
so every superseded generation's channel was closed; the current one is
closed exactly when the flag is up.  A wait blocked on generation `g`
completes successfully iff `chClosed` holds for `g`. -/
def Cond.chClosed (s : Cond) (g : Nat) : Bool :=
  decide (g < s.gen) || (decide (g = s.gen) && s.closed)

/-! ## The pool state (`pool.go`) -/

/-- Result of the caller-supplied validation callback on a given resource:
`(true, nil)`, `(false, nil)` or `(_, err)` in the source. -/
inductive VRes where
  | valid
  | invalid
  | err
  deriving DecidableEq

/-- Pool state (source: `Pool[T]` in `pool.go`).  `locked` is the borrowed
map, `unlocked` the idle map, both keyed by resource identity with the
timestamp as value.  `nextId`, `destroyed` and `createCount` are model
instrumentation: the fresh-identity supply for the construction callback,
the sequence of identities passed to the destruction callback, and the
number of construction-callback invocations so far. -/
structure Pool where
  size : Nat
  minIdle : Nat
  idleTimeout : Int
  borrowTimeout : Int
  locked : List (Nat × Int)
  unlocked : List (Nat × Int)
  closed : Bool
  nextId : Nat
  destroyed : List Nat
  createCount : Nat
  deriving DecidableEq

/-- The keys of a map (the tracked resource identities). -/
def keys (m : List (Nat × Int)) : List Nat := m.map Prod.fst

/-- Go `delete(m, k)`. -/
def mapDelete (m : List (Nat × Int)) (k : Nat) : List (Nat × Int) :=
  m.filter (fun p => p.1 != k)

/-- Go `m[k] = v` (overwrites any previous binding). -/
def mapInsert (m : List (Nat × Int)) (k : Nat) (v : Int) : List (Nat × Int) :=
  mapDelete m k ++ [(k, v)]

/-- Source `Pool.objectCount`: `len(p.unlocked) + len(p.locked)`. -/
def Pool.objectCount (p : Pool) : Nat :=
  p.unlocked.length + p.locked.length

/-! ## Borrow -/

/-- Outcome of the idle-scan loop at the top of `Pool.Borrow`. -/
inductive ScanResult where
  | found (o : Nat)
  | verr
  | exhausted
  deriving DecidableEq

/-- The idle-scan loop of `Pool.Borrow` (`for o := range p.unlocked`),
processing candidates in list order (the Go map order is
implementation-defined; the claims are order-independent).  Returns the
scan outcome, the remaining idle entries, and the identities passed to the
destruction callback (the invalid candidates, in scan order). -/
def scanIdle (vres : Nat → VRes) :
    List (Nat × Int) → ScanResult × List (Nat × Int) × List Nat
  | [] => (.exhausted, [], [])
  | (o, t) :: rest =>
    match vres o with
    | .err => (.verr, (o, t) :: rest, [])
    | .valid => (.found o, rest, [])
    | .invalid =>
      let r := scanIdle vres rest
      (r.1, r.2.1, o :: r.2.2)

/-- Result of a `Pool.Borrow` call.  `blocked` stands for the state in which
the capacity wait-loop is entered and, in this sequential semantics, no
concurrent `Return`/`CleanUp` ever signals the gate: the caller is parked
with the lock released and the state below is the observable pool state. -/
inductive BorrowOutcome where
  | ok (o : Nat)
  | validationError
  | createError
  | poolClosed
  | blocked
  deriving DecidableEq

/-- Source `Pool.Borrow`: fail if closed; scan the idle map, destroying
invalid candidates, returning the first valid one; otherwise wait for
capacity (modelled by `blocked`) and finally construct a new resource. -/
def Pool.Borrow (vres : Nat → VRes) (e : Nat → Bool) (now : Int) (p : Pool) :
    BorrowOutcome × Pool :=
  if p.closed then (.poolClosed, p)
  else
    match scanIdle vres p.unlocked with
    | (.found o, rem, des) =>
      (.ok o, { p with unlocked := rem,
                       locked := mapInsert p.locked o now,
                       destroyed := p.destroyed ++ des })
    | (.verr, rem, des) =>
      (.validationError, { p with unlocked := rem, destroyed := p.destroyed ++ des })
    | (.exhausted, rem, des) =>
      let p1 : Pool := { p with unlocked := rem, destroyed := p.destroyed ++ des }
      if p1.size ≤ p1.objectCount then (.blocked, p1)
      else if e p1.createCount then
        (.createError, { p1 with createCount := p1.createCount + 1 })
      else
        (.ok p1.nextId,
         { p1 with locked := mapInsert p1.locked p1.nextId now,
                   nextId := p1.nextId + 1,
                   createCount := p1.createCount + 1 })

/-! ## Return -/

/-- Source `Pool.Return`: no-op when closed or when handed `nil`; otherwise
unconditionally delete from the borrowed map, insert into the idle map with
the current time, and broadcast on the gate.  The returned boolean records
whether `Broadcast` was invoked. -/
def Pool.Return (o : Option Nat) (now : Int) (p : Pool) : Pool × Bool :=
  if p.closed then (p, false)
  else
    match o with
    | none => (p, false)
    | some o =>
      ({ p with locked := mapDelete p.locked o,
                unlocked := mapInsert p.unlocked o now }, true)

/-! ## CleanUp -/

/-- One expiry pass of `Pool.CleanUp` over a map: keep the entries whose age
`now - t` is within `timeout`, and list the identities of the expired ones
(which the source deletes and passes to the destruction callback). -/
def expirePass (now timeout : Int) (m : List (Nat × Int)) :
    List (Nat × Int) × List Nat :=
  (m.filter (fun p => decide (now - p.2 ≤ timeout)),
   keys (m.filter (fun p => decide (timeout < now - p.2))))

/-- The `for i := idle; i < p.minIdle; i++` loop body of `Pool.keepMinIdle`,
parameterised by the remaining iteration count.  Each iteration invokes the
construction callback; on failure the error aborts the loop (boolean `true`),
already-created resources staying idle. -/
def keepMinIdleLoop (e : Nat → Bool) (now : Int) : Nat → Pool → Pool × Bool
  | 0, p => (p, false)
  | n + 1, p =>
    if e p.createCount then ({ p with createCount := p.createCount + 1 }, true)
    else
      keepMinIdleLoop e now n
        { p with unlocked := mapInsert p.unlocked p.nextId now,
                 nextId := p.nextId + 1,
                 createCount := p.createCount + 1 }

/-- Source `Pool.keepMinIdle`: return early when the idle count already
meets `minIdle` or the pool is at capacity; otherwise run the top-up loop
`minIdle - idle` times.  The capacity test is only performed here, before
the loop. -/
def Pool.keepMinIdle (e : Nat → Bool) (now : Int) (p : Pool) : Pool × Bool :=
  let idle := p.unlocked.length
  if p.minIdle ≤ idle || p.size ≤ p.objectCount then (p, false)
  else keepMinIdleLoop e now (p.minIdle - idle) p

/-- Result of a `Pool.CleanUp` call: final state, whether an error was
returned, and whether `Broadcast` was invoked on the gate. -/
structure CleanUpRes where
  state : Pool
  errored : Bool
  broadcasted : Bool
  deriving DecidableEq

/-- Source `Pool.CleanUp`: no-op when closed; expire timed-out idle and
borrowed entries; run the min-idle top-up, returning its error (in which
case the broadcast at the end is skipped); broadcast iff something expired. -/
def Pool.CleanUp (e : Nat → Bool) (now : Int) (p : Pool) : CleanUpRes :=
  if p.closed then ⟨p, false, false⟩
  else
    let u := expirePass now p.idleTimeout p.unlocked
    let l := expirePass now p.borrowTimeout p.locked
    let expired := !u.2.isEmpty || !l.2.isEmpty
    let p1 : Pool := { p with unlocked := u.1, locked := l.1,
                              destroyed := p.destroyed ++ u.2 ++ l.2 }
    let r := p1.keepMinIdle e now
    if r.2 then ⟨r.1, true, false⟩
    else ⟨r.1, false, expired⟩

/-! ## Closing and construction -/

/-- The `ctx.Done()` branch of the janitor goroutine started by `New`:
destroy every borrowed then every idle resource, clear both maps, set
`closed`. -/
def Pool.close (p : Pool) : Pool :=
  { p with destroyed := p.destroyed ++ keys p.locked ++ keys p.unlocked,
           locked := [], unlocked := [], closed := true }

/-- Source `New` (configuration already applied: the `Size` option clamps
the maximum size to at least 1 and `MinIdle` clamps the minimum idle count
to at least 0, which the `Nat` parameters reflect): start from empty maps
and perform one synchronous `keepMinIdle`; on error the pool is not
returned. -/
def Pool.New (e : Nat → Bool) (now : Int) (size minIdle : Nat)
    (idleTimeout borrowTimeout : Int) : Option Pool :=
  let p0 : Pool :=
    { size := size, minIdle := minIdle,
      idleTimeout := idleTimeout, borrowTimeout := borrowTimeout,
      locked := [], unlocked := [], closed := false,
      nextId := 0, destroyed := [], createCount := 0 }
  let r := p0.keepMinIdle e now
  if r.2 then none else some r.1

/-! ## Operation sequences -/

/-- One externally observable pool operation, with its oracles. -/
inductive Op where
  | opBorrow (vres : Nat → VRes) (e : Nat → Bool) (now : Int)
  | opReturn (o : Option Nat) (now : Int)
  | opCleanUp (e : Nat → Bool) (now : Int)
  | opClose

/-- The state transition of one operation. -/
def Op.step (p : Pool) : Op → Pool
  | .opBorrow vres e now => (Pool.Borrow vres e now p).2
  | .opReturn o now => (Pool.Return o now p).1
  | .opCleanUp e now => (Pool.CleanUp e now p).state
  | .opClose => p.close

/-- Run a sequence of operations. -/
def run (ops : List Op) (p : Pool) : Pool :=
  ops.foldl Op.step p

/-- Caller discipline for one operation: a `Return` must hand back either
nothing, or an identity the pool currently tracks (borrowed or idle), unless
the pool is already closed (`Return` is then a no-op).  All other operations
are unrestricted. -/
def retOk (p : Pool) : Op → Bool
  | .opReturn (some o) _ =>
    p.closed || (keys p.locked).contains o || (keys p.unlocked).contains o
  | _ => true

/-- A trace is valid from `p` when every operation obeys `retOk` at the
state where it runs. -/
def validTrace : List Op → Pool → Bool
  | [], _ => true
  | op :: ops, p => retOk p op && validTrace ops (Op.step p op)

/-- All identities the pool has ever taken responsibility for, as currently
recorded: borrowed, idle, and destroyed. -/
def allKeys (p : Pool) : List Nat :=
  keys p.locked ++ keys p.unlocked ++ p.destroyed

/-- The pool's identity-tracking invariant: no identity is tracked twice
(across the borrowed map, the idle map and the destruction record), and
every identity ever seen is below the fresh counter. -/
def invB (p : Pool) : Bool :=
  decide (allKeys p).Nodup && (allKeys p).all (fun i => decide (i < p.nextId))

/-! ## Lock/callback event traces

For the lock-discipline claims we record, for each public operation, the
sequence of lock, gate-wait and callback events exactly as the source code
performs them. -/

/-- Events of an execution: mutex acquire/release, blocking on the gate
channel inside `Cond.Wait`, and the caller-supplied callback invocations. -/
inductive Ev where
  | lock
  | unlock
  | waitGate
  | cbCreate
  | cbValidate (o : Nat)
  | cbExpire (o : Nat)
  deriving DecidableEq

/-- Is the event a caller-supplied callback invocation? -/
def isCallback : Ev → Bool
  | .cbCreate => true
  | .cbValidate _ => true
  | .cbExpire _ => true
  | _ => false

/-- Lock depth after an event (the pool has a single mutex, so depth is 0
or 1 in every trace below). -/
def evStep (d : Nat) : Ev → Nat
  | .lock => d + 1
  | .unlock => d - 1
  | _ => d

/-- Annotate each event with the lock depth at which it happens (for
`unlock`, the depth before releasing). -/
def annotate (d : Nat) : List Ev → List (Ev × Nat)
  | [] => []
  | ev :: rest => (ev, d) :: annotate (evStep d ev) rest

/-- Lock depth after a whole event list. -/
def depthAfter (d : Nat) (t : List Ev) : Nat :=
  t.foldl evStep d

/-- Every caller-supplied callback in the trace runs with the lock free
(depth 0).  This is the discipline the specification demands. -/
def noLockDuringCallbacks (t : List Ev) : Bool :=
  (annotate 0 t).all (fun q => !isCallback q.1 || decide (q.2 = 0))

/-- Every caller-supplied callback in the trace runs with the lock held
(depth 1).  This is what the source code does. -/
def callbacksUnderLock (t : List Ev) : Bool :=
  (annotate 0 t).all (fun q => !isCallback q.1 || decide (q.2 = 1))

/-- Every blocking gate wait happens with the lock free (depth 0). -/
def gateWaitOutsideLock (t : List Ev) : Bool :=
  (annotate 0 t).all (fun q => !decide (q.1 = Ev.waitGate) || decide (q.2 = 0))

/-- Events of the idle-scan loop of `Pool.Borrow`: validate each candidate,
destroying the invalid ones, stopping at an error or a valid candidate. -/
def scanEvents (vres : Nat → VRes) : List (Nat × Int) → List Ev
  | [] => []
  | (o, _) :: rest =>
    match vres o with
    | .err => [.cbValidate o]
    | .valid => [.cbValidate o]
    | .invalid => .cbValidate o :: .cbExpire o :: scanEvents vres rest

/-- Events of `w` iterations of the capacity wait-loop of `Pool.Borrow`:
each iteration releases the mutex, blocks on the gate, re-acquires. -/
def waitEvents : Nat → List Ev
  | 0 => []
  | n + 1 => .unlock :: .waitGate :: .lock :: waitEvents n

/-- Events of one `Pool.Borrow` execution.  `w` is the number of wait-loop
iterations taken (driven by concurrent signals), `creates` whether the
execution reaches the construction call (rather than returning from inside
the wait loop on cancellation or closure). -/
def borrowEvents (vres : Nat → VRes) (w : Nat) (creates : Bool) (p : Pool) :
    List Ev :=
  if p.closed then [.lock, .unlock]
  else
    .lock :: (scanEvents vres p.unlocked ++
      match (scanIdle vres p.unlocked).1 with
      | .found _ => [.unlock]
      | .verr => [.unlock]
      | .exhausted =>
        waitEvents w ++ (if creates then [.cbCreate, .unlock] else [.unlock]))

/-- Events of one `Pool.Return` execution: no callbacks at all. -/
def returnEvents : List Ev := [.lock, .unlock]

/-- Events of the `keepMinIdle` top-up loop: one construction call per
iteration, stopping after a failed one.  `c` is the current value of the
construction-invocation counter. -/
def topUpEvents (e : Nat → Bool) : Nat → Nat → List Ev
  | _, 0 => []
  | c, n + 1 => if e c then [.cbCreate] else .cbCreate :: topUpEvents e (c + 1) n

/-- Events of one `Pool.keepMinIdle` execution from state `p`. -/
def keepMinIdleEvents (e : Nat → Bool) (p : Pool) : List Ev :=
  if p.minIdle ≤ p.unlocked.length || p.size ≤ p.objectCount then []
  else topUpEvents e p.createCount (p.minIdle - p.unlocked.length)

/-- Events of one `Pool.CleanUp` execution: destruction of every expired
entry, then the top-up's construction calls, all between one lock/unlock
pair. -/
def cleanUpEvents (e : Nat → Bool) (now : Int) (p : Pool) : List Ev :=
  if p.closed then [.lock, .unlock]
  else
    let u := expirePass now p.idleTimeout p.unlocked
    let l := expirePass now p.borrowTimeout p.locked
    let p1 : Pool := { p with unlocked := u.1, locked := l.1,
                              destroyed := p.destroyed ++ u.2 ++ l.2 }
    .lock :: (u.2.map Ev.cbExpire ++ l.2.map Ev.cbExpire ++
      keepMinIdleEvents e p1 ++ [.unlock])

/-- Events of the closing sequence (janitor's `ctx.Done()` branch):
destruction of every borrowed then idle resource under the lock. -/
def closeEvents (p : Pool) : List Ev :=
  .lock :: ((keys p.locked ++ keys p.unlocked).map Ev.cbExpire ++ [.unlock])

/-! ## Concrete fixtures used as test inputs -/

/-- A construction callback that never fails. -/
def eNone : Nat → Bool := fun _ => false

/-- A construction callback that always fails. -/
def eAll : Nat → Bool := fun _ => true

/-- A validation callback that reports every resource valid (the source
default). -/
def vAllValid : Nat → VRes := fun _ => .valid

/-- A validation callback that reports resource 0 invalid, resource 1 as a
validation error, everything else valid. -/
def vMixed : Nat → VRes :=
  fun n => if n == 0 then .invalid else if n == 1 then .err else .valid

/-- A small open pool with one idle resource and a minimum idle count of 1. -/
def poolOneIdle : Pool :=
  { size := 5, minIdle := 1, idleTimeout := 30, borrowTimeout := 30,
    locked := [], unlocked := [(0, 0)], closed := false, nextId := 1,
    destroyed := [], createCount := 1 }

/-- A closed pool (the state left behind by the closing sequence). -/
def poolClosedEx : Pool :=
  { size := 5, minIdle := 0, idleTimeout := 30, borrowTimeout := 30,
    locked := [], unlocked := [], closed := true, nextId := 1,
    destroyed := [0], createCount := 1 }

/-- An open pool with three idle resources, used to exercise the idle scan. -/
def poolThreeIdle : Pool :=
  { size := 5, minIdle := 0, idleTimeout := 30, borrowTimeout := 30,
    locked := [], unlocked := [(0, 0), (1, 1), (2, 2)], closed := false, nextId := 3,
    destroyed := [], createCount := 3 }

/-- An open pool with two idle resources. -/
def poolTwoIdle : Pool :=
  { size := 5, minIdle := 0, idleTimeout := 30, borrowTimeout := 30,
    locked := [], unlocked := [(0, 0), (1, 1)], closed := false, nextId := 2,
    destroyed := [], createCount := 2 }

/-! ## Basic map lemmas -/

theorem keys_append (m₁ m₂ : List (Nat × Int)) :
    keys (m₁ ++ m₂) = keys m₁ ++ keys m₂ :=
  List.map_append _ _ _

theorem mapDelete_eq_self {m : List (Nat × Int)} {k : Nat} (h : k ∉ keys m) :
    mapDelete m k = m := by
  apply List.filter_eq_self.mpr
  intro a ha
  simp only [bne_iff_ne, ne_eq]
  intro hak
  exact h (hak ▸ List.mem_map_of_mem Prod.fst ha)

theorem mapInsert_of_not_mem {m : List (Nat × Int)} {k : Nat} (v : Int) (h : k ∉ keys m) :
    mapInsert m k v = m ++ [(k, v)] := by
  rw [mapInsert, mapDelete_eq_self h]

theorem keys_mapDelete (m : List (Nat × Int)) (k : Nat) :
    keys (mapDelete m k) = (keys m).filter (fun x => x != k) := by
  induction m with
  | nil => rfl
  | cons a m ih =>
    simp only [mapDelete, keys, List.map_cons, List.filter_cons] at *
    by_cases h : a.1 = k
    · simp [h, ih]
    · simp [h, ih]

theorem keys_mapDelete_perm {m : List (Nat × Int)} {k : Nat}
    (hnd : (keys m).Nodup) (hm : k ∈ keys m) :
    List.Perm (keys m) (k :: keys (mapDelete m k)) := by
  rw [keys_mapDelete, ← hnd.erase_eq_filter k]
  exact List.perm_cons_erase hm

/-! ## Claim C1: the gate's memory of a broadcast with no waiters -/

/-- Claim C1 (counterexample).  The claim states that after a broadcast with
no blocked waiters, the next single `wait` returns immediately.  In the code
it does not: `Cond.Wait` first rotates to a fresh channel (because the flag
is up) and then captures and blocks on that fresh, unclosed channel.
Concretely, from the initial gate state, one `Broadcast` followed by one
`Wait` leaves the waiter blocked on generation 1, whose channel is not
closed. -/
theorem c1_counterexample :
    (Cond.wait (Cond.broadcast NewCond)).2 = 1 ∧
    Cond.chClosed (Cond.wait (Cond.broadcast NewCond)).1
      (Cond.wait (Cond.broadcast NewCond)).2 = false := by decide

/-- Claim C1 (amended).  A broadcast with no waiters is remembered only in
the `closed` flag: the next `wait` observes the flag, rotates to a fresh
generation, clears the flag, and then blocks on the new generation (it does
not return immediately); it is released by the next broadcast. -/
theorem c1_amended (s : Cond) (h : s.closed = false) :
    (Cond.broadcast s).closed = true ∧
    Cond.wait (Cond.broadcast s) = ({ gen := s.gen + 1, closed := false }, s.gen + 1) ∧
    Cond.chClosed (Cond.wait (Cond.broadcast s)).1 (Cond.wait (Cond.broadcast s)).2 = false ∧
    Cond.chClosed (Cond.broadcast (Cond.wait (Cond.broadcast s)).1)
      (Cond.wait (Cond.broadcast s)).2 = true := by
  simp [Cond.broadcast, Cond.wait, Cond.chClosed, h]

/-- Claim C1 (witness): the amended statement at the initial gate state. -/
theorem c1_witness :
    NewCond.closed = false ∧
    ((Cond.broadcast NewCond).closed = true ∧
     Cond.wait (Cond.broadcast NewCond) = ({ gen := 1, closed := false }, 1) ∧
     Cond.chClosed (Cond.wait (Cond.broadcast NewCond)).1
       (Cond.wait (Cond.broadcast NewCond)).2 = false ∧
     Cond.chClosed (Cond.broadcast (Cond.wait (Cond.broadcast NewCond)).1)
       (Cond.wait (Cond.broadcast NewCond)).2 = true) :=
  ⟨rfl, c1_amended NewCond rfl⟩

/-! ## Claim C2: the capacity invariant -/

/-- Claim C2 (code bug, evaluation at the failing input).  With maximum
size 3 and minimum idle 2: construct the pool (2 idle), borrow both, then
run `CleanUp`.  `keepMinIdle` checks capacity only before its loop
(`objectCount = 2 < 3`) and then creates 2 resources without re-checking,
leaving `|idle| + |borrowed| = 4 > 3`: the invariant and the claim's
"never constructs at capacity" both fail, contradicting the repository
documentation that the janitor respects the maximum size limit. -/
theorem c2_bug_eval :
    (Pool.New eNone 0 3 2 30 30).map
      (fun p => decide (p.size <
        (run [.opBorrow vAllValid eNone 0, .opBorrow vAllValid eNone 0,
              .opCleanUp eNone 0] p).objectCount)) = some true := by decide

/-! ## Claim C3: Return of an untracked identity -/

/-- Claim C3 (counterexample).  The claim states that a `Return` of an
identity tracked in neither map leaves both maps unchanged.  In the code
`Return` unconditionally inserts the identity into the idle map: returning
the untracked identity 7 to an open pool changes the idle map. -/
theorem c3_counterexample :
    (Pool.Return (some 7) 5 poolTwoIdle).1.unlocked ≠ poolTwoIdle.unlocked ∧
    (Pool.Return (some 7) 5 poolTwoIdle).1.unlocked =
      poolTwoIdle.unlocked ++ [(7, 5)] := by decide

/-- Claim C3 (amended).  On a non-closed pool, a `Return` of an identity
tracked in neither the idle nor the borrowed map is not a no-op: the
borrowed map is unchanged, but the identity is inserted into the idle map
with the current time, and the gate is broadcast. -/
theorem c3_amended (o : Nat) (now : Int) (p : Pool) (hc : p.closed = false)
    (hl : o ∉ keys p.locked) (hu : o ∉ keys p.unlocked) :
    Pool.Return (some o) now p =
      ({ p with unlocked := p.unlocked ++ [(o, now)] }, true) := by
  simp [Pool.Return, hc, mapDelete_eq_self hl, mapInsert_of_not_mem now hu]

/-- Claim C3 (witness): the amended statement at a concrete open pool and
the untracked identity 7. -/
theorem c3_witness :
    poolTwoIdle.closed = false ∧ 7 ∉ keys poolTwoIdle.locked ∧
    7 ∉ keys poolTwoIdle.unlocked ∧
    Pool.Return (some 7) 5 poolTwoIdle =
      ({ poolTwoIdle with unlocked := poolTwoIdle.unlocked ++ [(7, 5)] }, true) :=
  ⟨rfl, by decide, by decide, c3_amended 7 5 poolTwoIdle rfl (by decide) (by decide)⟩

/-! ## Claim C7: behaviour after closing -/

/-- Claim C7 (confirmed).  On a closed pool, `Borrow` fails with the
closed-pool error, `Return` leaves the state unchanged and does not
broadcast, and `CleanUp` leaves the state unchanged, reports no error and
does not broadcast. -/
theorem c7_closed_rejects (vres : Nat → VRes) (e : Nat → Bool) (now : Int)
    (o : Option Nat) (p : Pool) (h : p.closed = true) :
    Pool.Borrow vres e now p = (.poolClosed, p) ∧
    Pool.Return o now p = (p, false) ∧
    Pool.CleanUp e now p = ⟨p, false, false⟩ := by
  simp [Pool.Borrow, Pool.Return, Pool.CleanUp, h]

/-- Claim C7 (witness): the statement at a concrete closed pool. -/
theorem c7_witness :
    poolClosedEx.closed = true ∧
    (Pool.Borrow vAllValid eNone 0 poolClosedEx = (.poolClosed, poolClosedEx) ∧
     Pool.Return (some 0) 0 poolClosedEx = (poolClosedEx, false) ∧
     Pool.CleanUp eNone 0 poolClosedEx = ⟨poolClosedEx, false, false⟩) :=
  ⟨rfl, c7_closed_rejects vAllValid eNone 0 (some 0) poolClosedEx rfl⟩

/-! ## Claim C8: broadcast after expiry in CleanUp -/

/-- Claim C8 (counterexample).  The claim states that `CleanUp` broadcasts
whenever something expired, including when the min-idle top-up afterwards
fails.  In the code the top-up error returns before the broadcast: with one
expired idle resource (destroyed), a minimum idle of 1 and a failing
construction callback, `CleanUp` errors and does not broadcast. -/
theorem c8_counterexample :
    (Pool.CleanUp eAll 100 poolOneIdle).state.destroyed = [0] ∧
    (Pool.CleanUp eAll 100 poolOneIdle).errored = true ∧
    (Pool.CleanUp eAll 100 poolOneIdle).broadcasted = false := by decide

/-- The top-up loop only ever appends (fresh) entries to the idle map. -/
theorem keepMinIdleLoop_unlocked_extend (e : Nat → Bool) (now : Int) (n : Nat) (p : Pool)
    (hb : ∀ i ∈ keys p.unlocked, i < p.nextId) :
    ∃ ex, (keepMinIdleLoop e now n p).1.unlocked = p.unlocked ++ ex := by
  induction n generalizing p with
  | zero => exact ⟨[], (List.append_nil _).symm⟩
  | succ n ih =>
    by_cases h : e p.createCount = true
    · exact ⟨[], by simp [keepMinIdleLoop, h, List.append_nil]⟩
    · have hfresh : p.nextId ∉ keys p.unlocked := fun hmem => absurd (hb _ hmem) (lt_irrefl _)
      have hins : mapInsert p.unlocked p.nextId now = p.unlocked ++ [(p.nextId, now)] :=
        mapInsert_of_not_mem now hfresh
      have hb' : ∀ i ∈ keys (mapInsert p.unlocked p.nextId now), i < p.nextId + 1 := by
        intro i hi
        rw [hins, keys_append] at hi
        rcases List.mem_append.mp hi with hi | hi
        · exact Nat.lt_succ_of_lt (hb i hi)
        · have : i = p.nextId := by simpa [keys] using hi
          omega
      obtain ⟨ex, hex⟩ := ih { p with unlocked := mapInsert p.unlocked p.nextId now, nextId := p.nextId + 1, createCount := p.createCount + 1 } hb'
      refine ⟨(p.nextId, now) :: ex, ?_⟩
      simp only [keepMinIdleLoop, h, if_false, Bool.false_eq_true]
      rw [hex]
      simp [hins]

/-- `keepMinIdle` only ever appends entries to the idle map. -/
theorem keepMinIdle_unlocked_extend (e : Nat → Bool) (now : Int) (p : Pool)
    (hb : ∀ i ∈ keys p.unlocked, i < p.nextId) :
    ∃ ex, (p.keepMinIdle e now).1.unlocked = p.unlocked ++ ex := by
  rw [Pool.keepMinIdle]
  split
  · exact ⟨[], (List.append_nil _).symm⟩
  · exact keepMinIdleLoop_unlocked_extend e now _ _ hb

/-- Claim C8 (amended).  On a non-closed pool, `CleanUp` broadcasts if and
only if something expired AND the min-idle top-up did not fail; when the
top-up fails the error is propagated without broadcasting, and the
already-created resources of the partial top-up remain idle (the final idle
map extends the post-expiry idle map). -/
theorem c8_amended (e : Nat → Bool) (now : Int) (p : Pool) (hc : p.closed = false)
    (hb : ∀ i ∈ keys p.unlocked, i < p.nextId) :
    ((Pool.CleanUp e now p).broadcasted =
      ((!(expirePass now p.idleTimeout p.unlocked).2.isEmpty ||
        !(expirePass now p.borrowTimeout p.locked).2.isEmpty) &&
       !(Pool.CleanUp e now p).errored)) ∧
    ∃ ex, (Pool.CleanUp e now p).state.unlocked =
      (expirePass now p.idleTimeout p.unlocked).1 ++ ex := by
  have hb1 : ∀ i ∈ keys (expirePass now p.idleTimeout p.unlocked).1, i < p.nextId := by
    intro i hi
    apply hb
    simp only [expirePass, keys, List.mem_map] at hi ⊢
    obtain ⟨q, hq, rfl⟩ := hi
    exact ⟨q, List.mem_of_mem_filter hq, rfl⟩
  constructor
  · simp only [Pool.CleanUp, hc, Bool.false_eq_true, if_false]
    split
    · simp
    · simp
  · simp only [Pool.CleanUp, hc, Bool.false_eq_true, if_false]
    split
    · exact keepMinIdle_unlocked_extend e now _ hb1
    · exact keepMinIdle_unlocked_extend e now _ hb1

/-- Claim C8 (witness): the amended statement at a concrete pool with one
expired idle resource and an always-failing construction callback. -/
theorem c8_witness :
    poolOneIdle.closed = false ∧
    (∀ i ∈ keys poolOneIdle.unlocked, i < poolOneIdle.nextId) ∧
    (((Pool.CleanUp eAll 100 poolOneIdle).broadcasted =
       ((!(expirePass 100 poolOneIdle.idleTimeout poolOneIdle.unlocked).2.isEmpty ||
         !(expirePass 100 poolOneIdle.borrowTimeout poolOneIdle.locked).2.isEmpty) &&
        !(Pool.CleanUp eAll 100 poolOneIdle).errored)) ∧
     ∃ ex, (Pool.CleanUp eAll 100 poolOneIdle).state.unlocked =
       (expirePass 100 poolOneIdle.idleTimeout poolOneIdle.unlocked).1 ++ ex) :=
  ⟨rfl, by decide, c8_amended eAll 100 poolOneIdle rfl (by decide)⟩

/-! ## Claim C10: validation errors during the idle scan -/

/-- If the scan reaches a candidate whose validation errors (every earlier
candidate was invalid), the scan stops with a validation error, the erroring
candidate and all later candidates remain, and exactly the earlier
candidates have been destroyed. -/
theorem scanIdle_verr (vres : Nat → VRes) (l₁ l₂ : List (Nat × Int)) (o : Nat) (t : Int)
    (h₁ : ∀ q ∈ l₁, vres q.1 = VRes.invalid) (ho : vres o = VRes.err) :
    scanIdle vres (l₁ ++ (o, t) :: l₂) = (.verr, (o, t) :: l₂, keys l₁) := by
  induction l₁ with
  | nil => simp [scanIdle, ho, keys]
  | cons a l₁ ih =>
    obtain ⟨a1, a2⟩ := a
    have ha : vres a1 = VRes.invalid := h₁ (a1, a2) (by simp)
    have ih' := ih (fun q hq => h₁ q (List.mem_cons_of_mem _ hq))
    simp [scanIdle, ha, ih', keys]

/-- Claim C10 (confirmed).  When the validation callback returns an error
for an idle candidate (after a run of invalid candidates), `Borrow` fails
immediately with the validation error; the erroring candidate stays in the
idle map (neither removed nor destroyed), the candidates invalidated
earlier in the same scan stay removed and destroyed, no later candidate is
examined (the tail is untouched for arbitrary validation results on it),
and the borrowed map is unchanged. -/
theorem c10_validation_error (vres : Nat → VRes) (e : Nat → Bool) (now : Int)
    (p : Pool) (o : Nat) (t : Int) (l₁ l₂ : List (Nat × Int))
    (hu : p.unlocked = l₁ ++ (o, t) :: l₂)
    (h₁ : ∀ q ∈ l₁, vres q.1 = VRes.invalid)
    (ho : vres o = VRes.err) (hc : p.closed = false) :
    Pool.Borrow vres e now p =
      (.validationError,
       { p with unlocked := (o, t) :: l₂, destroyed := p.destroyed ++ keys l₁ }) := by
  simp [Pool.Borrow, hc, hu, scanIdle_verr vres l₁ l₂ o t h₁ ho]

/-- Claim C10 (witness): the statement at a concrete pool whose idle scan
meets an invalid candidate and then an erroring one, with a third candidate
behind them. -/
theorem c10_witness :
    poolThreeIdle.unlocked = [(0, 0)] ++ (1, 1) :: [(2, 2)] ∧
    (∀ q ∈ [((0 : Nat), (0 : Int))], vMixed q.1 = VRes.invalid) ∧
    vMixed 1 = VRes.err ∧ poolThreeIdle.closed = false ∧
    Pool.Borrow vMixed eNone 9 poolThreeIdle =
      (.validationError,
       { poolThreeIdle with unlocked := (1, 1) :: [(2, 2)],
                            destroyed := poolThreeIdle.destroyed ++ keys [(0, 0)] }) :=
  ⟨rfl, by decide, rfl, rfl,
   c10_validation_error vMixed eNone 9 poolThreeIdle 1 1 [(0, 0)] [(2, 2)]
     rfl (by decide) rfl rfl⟩

/-! ## Claim C6: discarding invalid idle candidates -/

/-- A run of invalid candidates at the front of the idle map is skipped by
the scan: the outcome and remainder are those of scanning the tail, and the
run's identities are destroyed in order. -/
theorem scanIdle_invalid_skip (vres : Nat → VRes) (l₁ l₂ : List (Nat × Int))
    (h₁ : ∀ q ∈ l₁, vres q.1 = VRes.invalid) :
    scanIdle vres (l₁ ++ l₂) =
      ((scanIdle vres l₂).1, (scanIdle vres l₂).2.1, keys l₁ ++ (scanIdle vres l₂).2.2) := by
  induction l₁ with
  | nil => simp [keys]
  | cons a l₁ ih =>
    obtain ⟨a1, a2⟩ := a
    have ha : vres a1 = VRes.invalid := h₁ (a1, a2) (by simp)
    simp [scanIdle, ha, ih (fun q hq => h₁ q (List.mem_cons_of_mem _ hq)), keys]

/-- The entries remaining in the idle map after a scan are a sublist of the
scanned entries. -/
theorem scanIdle_rem_sublist (vres : Nat → VRes) (l : List (Nat × Int)) :
    List.Sublist (scanIdle vres l).2.1 l := by
  induction l with
  | nil => simp [scanIdle]
  | cons a l ih =>
    obtain ⟨a1, a2⟩ := a
    rcases hv : vres a1 with _ | _ | _
    · simp only [scanIdle, hv]
      exact List.Sublist.cons _ (List.Sublist.refl l)
    · simp only [scanIdle, hv]
      exact List.Sublist.cons _ ih
    · simp only [scanIdle, hv]
      exact List.Sublist.refl _

/-- A scan only reports `found` for an identity present in the idle map. -/
theorem scanIdle_found_mem (vres : Nat → VRes) (l : List (Nat × Int)) (o : Nat)
    (h : (scanIdle vres l).1 = .found o) : o ∈ keys l := by
  induction l with
  | nil => simp [scanIdle] at h
  | cons a l ih =>
    obtain ⟨a1, a2⟩ := a
    rcases hv : vres a1 with _ | _ | _
    · simp only [scanIdle, hv, ScanResult.found.injEq] at h
      simp [keys, h]
    · simp only [scanIdle, hv] at h
      exact List.mem_cons_of_mem _ (ih h)
    · simp [scanIdle, hv] at h

/-- A scan only destroys identities present in the idle map. -/
theorem scanIdle_des_subset (vres : Nat → VRes) (l : List (Nat × Int)) :
    ∀ x ∈ (scanIdle vres l).2.2, x ∈ keys l := by
  induction l with
  | nil => simp [scanIdle]
  | cons a l ih =>
    obtain ⟨a1, a2⟩ := a
    intro x hx
    rcases hv : vres a1 with _ | _ | _
    · simp [scanIdle, hv] at hx
    · simp only [scanIdle, hv, List.mem_cons] at hx
      rcases hx with rfl | hx
      · simp [keys]
      · exact List.mem_cons_of_mem _ (ih x hx)
    · simp [scanIdle, hv] at hx

/-- Claim C6 (confirmed).  When the scan reaches an idle candidate that the
validation callback reports invalid (no error), that candidate is removed
from the idle map, destroyed exactly once, never returned by this `Borrow`
and never moved to the borrowed map; and the call's outcome is exactly the
outcome of the same `Borrow` on the pool with that candidate deleted
(scanning continues with the next candidate, constructing a new resource
if no valid candidate remains and capacity allows). -/
theorem c6_invalid_discard (vres : Nat → VRes) (e : Nat → Bool) (now : Int)
    (p : Pool) (o : Nat) (t : Int) (l₁ l₂ : List (Nat × Int))
    (hu : p.unlocked = l₁ ++ (o, t) :: l₂)
    (h₁ : ∀ q ∈ l₁, vres q.1 = VRes.invalid)
    (ho : vres o = VRes.invalid)
    (hnd : (keys p.unlocked).Nodup)
    (hl : o ∉ keys p.locked)
    (hfresh : o < p.nextId)
    (hc : p.closed = false) :
    (Pool.Borrow vres e now p).1 ≠ .ok o ∧
    o ∉ keys (Pool.Borrow vres e now p).2.unlocked ∧
    o ∉ keys (Pool.Borrow vres e now p).2.locked ∧
    (Pool.Borrow vres e now p).2.destroyed.count o = p.destroyed.count o + 1 ∧
    (Pool.Borrow vres e now p).1 =
      (Pool.Borrow vres e now { p with unlocked := l₁ ++ l₂ }).1 := by
  have hkeys : keys p.unlocked = keys l₁ ++ o :: keys l₂ := by
    rw [hu]; simp [keys]
  have hnd' : (keys l₁ ++ o :: keys l₂).Nodup := hkeys ▸ hnd
  have ho1 : o ∉ keys l₁ :=
    fun hm => (List.disjoint_of_nodup_append hnd') hm (List.mem_cons_self o _)
  have ho2 : o ∉ keys l₂ :=
    (List.nodup_cons.mp (List.nodup_append.mp hnd').2.1).1
  have hsplit : p.unlocked = (l₁ ++ [(o, t)]) ++ l₂ := by
    rw [hu]; simp
  have hall : ∀ q ∈ l₁ ++ [(o, t)], vres q.1 = VRes.invalid := by
    intro q hq
    rcases List.mem_append.mp hq with h | h
    · exact h₁ q h
    · rw [List.mem_singleton.mp h]; exact ho
  rcases hs2 : scanIdle vres l₂ with ⟨r2, rem2, des2⟩
  have hscan : scanIdle vres p.unlocked = (r2, rem2, (keys l₁ ++ [o]) ++ des2) := by
    rw [hsplit, scanIdle_invalid_skip vres _ l₂ hall, hs2]
    simp [keys]
  have hscanE : scanIdle vres (l₁ ++ l₂) = (r2, rem2, keys l₁ ++ des2) := by
    rw [scanIdle_invalid_skip vres _ l₂ h₁, hs2]
  have hrem : o ∉ keys rem2 := by
    intro hm
    have hsub := (scanIdle_rem_sublist vres l₂).map Prod.fst
    rw [hs2] at hsub
    exact ho2 (hsub.subset hm)
  have hdes2 : o ∉ des2 := by
    intro hm
    have := scanIdle_des_subset vres l₂ o
    rw [hs2] at this
    exact ho2 (this hm)
  have hz1 : List.count o (keys l₁) = 0 := List.count_eq_zero.mpr ho1
  have hz2 : List.count o des2 = 0 := List.count_eq_zero.mpr hdes2
  cases r2 with
  | found o' =>
    have ho' : o' ∈ keys l₂ := by
      have := scanIdle_found_mem vres l₂ o'
      rw [hs2] at this
      exact this rfl
    have hne : o' ≠ o := fun h => ho2 (h ▸ ho')
    have hlk : o ∉ keys (mapInsert p.locked o' now) := by
      rw [mapInsert, keys_append, keys_mapDelete]
      intro hm
      rcases List.mem_append.mp hm with hm | hm
      · exact hl (List.mem_of_mem_filter hm)
      · have heq : o = o' := by simpa [keys] using hm
        exact hne heq.symm
    refine ⟨?_, ?_, ?_, ?_, ?_⟩ <;>
      simp [Pool.Borrow, hc, hscan, hscanE, hrem, hlk, hz1, hz2,
        List.count_append, hne, Ne.symm hne]
  | verr =>
    refine ⟨?_, ?_, ?_, ?_, ?_⟩ <;>
      simp [Pool.Borrow, hc, hscan, hscanE, hrem, hl, hz1, hz2, List.count_append]
  | exhausted =>
    have hnid : o ≠ p.nextId := Nat.ne_of_lt hfresh
    by_cases hcap : p.size ≤ rem2.length + p.locked.length
    · refine ⟨?_, ?_, ?_, ?_, ?_⟩ <;>
        simp [Pool.Borrow, hc, hscan, hscanE, Pool.objectCount, hcap, hrem, hl,
          hz1, hz2, List.count_append]
    · by_cases hcr : e p.createCount = true
      · refine ⟨?_, ?_, ?_, ?_, ?_⟩ <;>
          simp [Pool.Borrow, hc, hscan, hscanE, Pool.objectCount, hcap, hcr, hrem, hl,
            hz1, hz2, List.count_append]
      · have hdel : o ∉ keys (mapDelete p.locked p.nextId) := by
          rw [keys_mapDelete]
          exact fun hm => hl (List.mem_of_mem_filter hm)
        have hsing : o ∉ keys [(p.nextId, now)] := by simp [keys, hnid]
        refine ⟨?_, ?_, ?_, ?_, ?_⟩ <;>
          simp [Pool.Borrow, hc, hscan, hscanE, Pool.objectCount, hcap, hcr, hrem,
            hz1, hz2, List.count_append, mapInsert, keys_append, hdel, hsing,
            hnid, Ne.symm hnid]

/-- Claim C6 (witness): the statement at a concrete pool whose first idle
candidate is invalid. -/
theorem c6_witness :
    poolTwoIdle.unlocked = [] ++ (0, 0) :: [(1, 1)] ∧
    (∀ q ∈ ([] : List (Nat × Int)), vMixed q.1 = VRes.invalid) ∧
    vMixed 0 = VRes.invalid ∧
    (keys poolTwoIdle.unlocked).Nodup ∧
    0 ∉ keys poolTwoIdle.locked ∧
    0 < poolTwoIdle.nextId ∧
    poolTwoIdle.closed = false ∧
    ((Pool.Borrow vMixed eNone 7 poolTwoIdle).1 ≠ .ok 0 ∧
     0 ∉ keys (Pool.Borrow vMixed eNone 7 poolTwoIdle).2.unlocked ∧
     0 ∉ keys (Pool.Borrow vMixed eNone 7 poolTwoIdle).2.locked ∧
     (Pool.Borrow vMixed eNone 7 poolTwoIdle).2.destroyed.count 0 =
       poolTwoIdle.destroyed.count 0 + 1 ∧
     (Pool.Borrow vMixed eNone 7 poolTwoIdle).1 =
       (Pool.Borrow vMixed eNone 7 { poolTwoIdle with unlocked := [] ++ [(1, 1)] }).1) :=
  ⟨rfl, by decide, rfl, by decide, by decide, by decide, rfl,
   c6_invalid_discard vMixed eNone 7 poolTwoIdle 0 0 [] [(1, 1)] rfl (by decide) rfl
     (by decide) (by decide) (by decide) rfl⟩

/-! ## Claim C5: the synchronous min-idle top-up at construction -/

/-- When no construction call fails, the top-up loop creates exactly `n`
fresh resources, appending them to the idle map in order. -/
theorem keepMinIdleLoop_ok (e : Nat → Bool) (now : Int) (n : Nat) (p : Pool)
    (hb : ∀ i ∈ keys p.unlocked, i < p.nextId)
    (hok : ∀ j, j < n → e (p.createCount + j) = false) :
    keepMinIdleLoop e now n p =
      ({ p with unlocked := p.unlocked ++ (List.range n).map (fun i => (p.nextId + i, now)),
                nextId := p.nextId + n, createCount := p.createCount + n }, false) := by
  induction n generalizing p with
  | zero => simp [keepMinIdleLoop]
  | succ n ih =>
    have h0 : e p.createCount = false := by simpa using hok 0 (Nat.succ_pos n)
    have hfresh : p.nextId ∉ keys p.unlocked := fun hm => absurd (hb _ hm) (lt_irrefl _)
    have hins : mapInsert p.unlocked p.nextId now = p.unlocked ++ [(p.nextId, now)] :=
      mapInsert_of_not_mem now hfresh
    have hb' : ∀ i ∈ keys (mapInsert p.unlocked p.nextId now), i < p.nextId + 1 := by
      intro i hi
      rw [hins, keys_append] at hi
      rcases List.mem_append.mp hi with hi | hi
      · exact Nat.lt_succ_of_lt (hb i hi)
      · have : i = p.nextId := by simpa [keys] using hi
        omega
    have hok' : ∀ j, j < n → e (p.createCount + 1 + j) = false := by
      intro j hj
      have h := hok (j + 1) (by omega)
      have harith : p.createCount + (j + 1) = p.createCount + 1 + j := by omega
      rwa [harith] at h
    simp only [keepMinIdleLoop, h0, Bool.false_eq_true, if_false]
    rw [ih { p with unlocked := mapInsert p.unlocked p.nextId now, nextId := p.nextId + 1, createCount := p.createCount + 1 } hb' hok']
    simp only [hins, Prod.mk.injEq, Pool.mk.injEq, and_true, true_and]
    refine ⟨?_, ?_, ?_⟩
    · rw [List.append_assoc, List.range_succ_eq_map, List.map_cons]
      simp only [List.map_map, List.singleton_append]
      have hmap : List.map (fun i => (p.nextId + 1 + i, now)) (List.range n) =
          List.map ((fun i => (p.nextId + i, now)) ∘ Nat.succ) (List.range n) := by
        apply List.map_congr_left
        intro a ha
        simp only [Function.comp_apply, Prod.mk.injEq, and_true]
        omega
      rw [hmap]
      simp
    · omega
    · omega

/-- If some construction call within the loop's range fails, the loop
reports an error. -/
theorem keepMinIdleLoop_fail (e : Nat → Bool) (now : Int) (n : Nat) (p : Pool)
    (hf : ∃ j, j < n ∧ e (p.createCount + j) = true) :
    (keepMinIdleLoop e now n p).2 = true := by
  induction n generalizing p with
  | zero =>
    obtain ⟨j, hj, _⟩ := hf
    omega
  | succ n ih =>
    by_cases h0 : e p.createCount = true
    · simp [keepMinIdleLoop, h0]
    · simp only [keepMinIdleLoop, h0, Bool.false_eq_true, if_false]
      apply ih
      obtain ⟨j, hj, hje⟩ := hf
      rcases j with _ | j
      · rw [Nat.add_zero] at hje
        exact absurd hje h0
      · refine ⟨j, by omega, ?_⟩
        have harith : p.createCount + (j + 1) = p.createCount + 1 + j := by omega
        rwa [harith] at hje

/-- Claim C5 (confirmed).  Constructing a pool with minimum idle `k` and
maximum size at least `k` (and at least 1) performs the synchronous top-up:
if none of the first `k` construction calls fails, the pool is returned
with exactly `k` resources, all idle, none borrowed, and the construction
callback invoked exactly `k` times (`createCount = k`); if one of those
calls fails, construction fails and no pool is returned. -/
theorem c5_construction_topup (e : Nat → Bool) (now : Int) (size k : Nat)
    (idleTO borrowTO : Int) (h1 : 1 ≤ size) (hk : k ≤ size) :
    Pool.New e now size k idleTO borrowTO =
      (if (List.range k).all (fun j => !e j) then
        some { size := size, minIdle := k, idleTimeout := idleTO, borrowTimeout := borrowTO,
               locked := [], unlocked := (List.range k).map (fun i => (i, now)),
               closed := false, nextId := k, destroyed := [], createCount := k }
       else none) := by
  rcases Nat.eq_zero_or_pos k with rfl | hkpos
  · simp [Pool.New, Pool.keepMinIdle]
  · have hk0 : ¬ (k ≤ 0) := by omega
    have hs0 : ¬ (size ≤ 0) := by omega
    by_cases hall : ∀ j, j < k → e j = false
    · have hcond : (List.range k).all (fun j => !e j) = true := by
        simp only [List.all_eq_true, List.mem_range, Bool.not_eq_true']
        exact fun j hj => hall j hj
      have hok : ∀ j, j < k →
          e (({ size := size, minIdle := k, idleTimeout := idleTO, borrowTimeout := borrowTO, locked := [], unlocked := [], closed := false, nextId := 0, destroyed := [], createCount := 0 } : Pool).createCount + j) = false := by
        intro j hj
        simpa [Nat.zero_add] using hall j hj
      have hb : ∀ i ∈ keys ({ size := size, minIdle := k, idleTimeout := idleTO, borrowTimeout := borrowTO, locked := [], unlocked := [], closed := false, nextId := 0, destroyed := [], createCount := 0 } : Pool).unlocked,
          i < ({ size := size, minIdle := k, idleTimeout := idleTO, borrowTimeout := borrowTO, locked := [], unlocked := [], closed := false, nextId := 0, destroyed := [], createCount := 0 } : Pool).nextId := by
        intro i hi
        simp [keys] at hi
      simp only [Pool.New, Pool.keepMinIdle, Pool.objectCount, List.length_nil,
        Nat.add_zero, hk0, hs0, decide_eq_false, Bool.or_self, Bool.false_eq_true,
        if_false, Nat.sub_zero, decide_eq_true_eq]
      rw [keepMinIdleLoop_ok e now k _ hb hok]
      simp [hcond]
    · push_neg at hall
      obtain ⟨j, hj, hje⟩ := hall
      have hjt : e j = true := by
        revert hje
        cases e j <;> simp
      have hcond : ¬ ((List.range k).all (fun j => !e j) = true) := by
        simp only [List.all_eq_true, List.mem_range, Bool.not_eq_true']
        push_neg
        exact ⟨j, hj, by simp [hjt]⟩
      have hfail : (keepMinIdleLoop e now k { size := size, minIdle := k, idleTimeout := idleTO, borrowTimeout := borrowTO, locked := [], unlocked := [], closed := false, nextId := 0, destroyed := [], createCount := 0 }).2 = true :=
        keepMinIdleLoop_fail e now k _ ⟨j, hj, by simpa [Nat.zero_add] using hjt⟩
      simp only [Pool.New, Pool.keepMinIdle, Pool.objectCount, List.length_nil,
        Nat.add_zero, hk0, hs0, decide_eq_false, Bool.or_self, Bool.false_eq_true,
        if_false, Nat.sub_zero, decide_eq_true_eq]
      rw [hfail]
      simp [hcond]

/-- Claim C5 (witness): construction at size 3, minimum idle 2, with a
never-failing construction callback. -/
theorem c5_witness :
    (1 ≤ 3 ∧ 2 ≤ 3) ∧
    Pool.New eNone 0 3 2 30 30 =
      (if (List.range 2).all (fun j => !eNone j) then
        some { size := 3, minIdle := 2, idleTimeout := 30, borrowTimeout := 30,
               locked := [], unlocked := (List.range 2).map (fun i => (i, (0 : Int))),
               closed := false, nextId := 2, destroyed := [], createCount := 2 }
       else none) :=
  ⟨⟨by decide, by decide⟩,
   c5_construction_topup eNone 0 3 2 30 30 (by decide) (by decide)⟩

/-! ## Claim C9: lock discipline around callbacks and gate waits -/

theorem depthAfter_cons (d : Nat) (ev : Ev) (t : List Ev) :
    depthAfter d (ev :: t) = depthAfter (evStep d ev) t := rfl

theorem annotate_append (d : Nat) (l₁ l₂ : List Ev) :
    annotate d (l₁ ++ l₂) = annotate d l₁ ++ annotate (depthAfter d l₁) l₂ := by
  induction l₁ generalizing d with
  | nil => rfl
  | cons ev l₁ ih => simp [annotate, depthAfter_cons, ih]

/-- A callback event does not change the lock depth. -/
theorem evStep_callback (d : Nat) (ev : Ev) (h : isCallback ev = true) :
    evStep d ev = d := by
  cases ev <;> simp_all [evStep, isCallback]

theorem annotate_callbacks (d : Nat) (t : List Ev) (h : ∀ ev ∈ t, isCallback ev = true) :
    annotate d t = t.map (fun ev => (ev, d)) := by
  induction t with
  | nil => rfl
  | cons ev t ih =>
    have hev := evStep_callback d ev (h ev (List.mem_cons_self _ _))
    simp [annotate, hev, ih (fun x hx => h x (List.mem_cons_of_mem _ hx))]

theorem depthAfter_callbacks (d : Nat) (t : List Ev) (h : ∀ ev ∈ t, isCallback ev = true) :
    depthAfter d t = d := by
  induction t with
  | nil => rfl
  | cons ev t ih =>
    rw [depthAfter_cons, evStep_callback d ev (h ev (List.mem_cons_self _ _))]
    exact ih (fun x hx => h x (List.mem_cons_of_mem _ hx))

/-- Inside a critical section (depth 1), a run of callback events has every
callback at depth 1 and no gate wait. -/
theorem checks_of_callbacks (t : List Ev) (h : ∀ ev ∈ t, isCallback ev = true) :
    ∀ q ∈ annotate 1 t,
      (isCallback q.1 = true → q.2 = 1) ∧ (q.1 = Ev.waitGate → q.2 = 0) := by
  intro q hq
  rw [annotate_callbacks 1 t h] at hq
  obtain ⟨ev, hev, rfl⟩ := List.mem_map.mp hq
  have hcb := h ev hev
  cases ev <;> simp_all [isCallback]

/-- The wait loop, entered at depth 1, contains no callbacks, performs all
its gate waits at depth 0, and restores depth 1 at its end. -/
theorem waitEvents_checks (n : Nat) :
    (∀ q ∈ annotate 1 (waitEvents n),
      (isCallback q.1 = true → q.2 = 1) ∧ (q.1 = Ev.waitGate → q.2 = 0)) ∧
    depthAfter 1 (waitEvents n) = 1 := by
  induction n with
  | zero => simp [waitEvents, annotate, depthAfter]
  | succ n ih =>
    obtain ⟨i1, i2⟩ := ih
    constructor
    · intro q hq
      simp only [waitEvents, annotate, evStep] at hq
      norm_num at hq
      rcases hq with rfl | rfl | rfl | hq
      · simp [isCallback]
      · simp [isCallback]
      · simp [isCallback]
      · exact i1 q hq
    · simp only [waitEvents, depthAfter_cons, evStep]
      norm_num
      exact i2

/-- The scan's events are all callbacks. -/
theorem scanEvents_callbacks (vres : Nat → VRes) (l : List (Nat × Int)) :
    ∀ ev ∈ scanEvents vres l, isCallback ev = true := by
  induction l with
  | nil => simp [scanEvents]
  | cons a l ih =>
    obtain ⟨a1, a2⟩ := a
    intro ev hev
    rcases hv : vres a1 with _ | _ | _
    · simp only [scanEvents, hv, List.mem_singleton] at hev
      simp [hev, isCallback]
    · simp only [scanEvents, hv, List.mem_cons] at hev
      rcases hev with rfl | rfl | hev
      · rfl
      · rfl
      · exact ih ev hev
    · simp only [scanEvents, hv, List.mem_singleton] at hev
      simp [hev, isCallback]

/-- The top-up's events are all callbacks. -/
theorem topUpEvents_callbacks (e : Nat → Bool) (c n : Nat) :
    ∀ ev ∈ topUpEvents e c n, isCallback ev = true := by
  induction n generalizing c with
  | zero => simp [topUpEvents]
  | succ n ih =>
    intro ev hev
    by_cases hc : e c = true
    · simp only [topUpEvents, hc, if_true, List.mem_singleton] at hev
      simp [hev, isCallback]
    · simp only [topUpEvents, hc, Bool.false_eq_true, if_false, List.mem_cons] at hev
      rcases hev with rfl | hev
      · rfl
      · exact ih (c + 1) ev hev

/-- Every event of a cbExpire burst is a callback. -/
theorem expireEvents_callbacks (l : List Nat) :
    ∀ ev ∈ l.map Ev.cbExpire, isCallback ev = true := by
  intro ev hev
  obtain ⟨x, _, rfl⟩ := List.mem_map.mp hev
  rfl

/-- Bridge from the pointwise check to the Bool-valued trace predicates. -/
theorem check_to_bools (t : List Ev)
    (h : ∀ q ∈ annotate 0 t,
      (isCallback q.1 = true → q.2 = 1) ∧ (q.1 = Ev.waitGate → q.2 = 0)) :
    callbacksUnderLock t = true ∧ gateWaitOutsideLock t = true := by
  constructor
  · simp only [callbacksUnderLock, List.all_eq_true]
    intro q hq
    have hc := (h q hq).1
    by_cases hb : isCallback q.1 = true
    · simp [hb, hc hb]
    · simp [Bool.not_eq_true] at hb
      simp [hb]
  · simp only [gateWaitOutsideLock, List.all_eq_true]
    intro q hq
    have hc := (h q hq).2
    by_cases hb : q.1 = Ev.waitGate
    · simp [hb, hc hb]
    · simp [hb]

/-- An execution of the shape lock–callbacks–unlock satisfies the pointwise
check. -/
theorem checks_lock_mid_unlock (mid : List Ev) (h : ∀ ev ∈ mid, isCallback ev = true) :
    ∀ q ∈ annotate 0 (.lock :: (mid ++ [.unlock])),
      (isCallback q.1 = true → q.2 = 1) ∧ (q.1 = Ev.waitGate → q.2 = 0) := by
  intro q hq
  simp only [annotate, evStep, annotate_append,
    depthAfter_callbacks 1 mid h, List.mem_cons, List.mem_append] at hq
  rcases hq with rfl | hq | hq
  · simp [isCallback]
  · exact checks_of_callbacks mid h q hq
  · simp only [annotate, List.mem_cons, List.mem_singleton, List.not_mem_nil,
      or_false] at hq
    subst hq
    simp [isCallback]

/-- Every `Borrow` execution keeps its callbacks at depth 1 and its gate
waits at depth 0. -/
theorem checks_borrow (vres : Nat → VRes) (w : Nat) (creates : Bool) (p : Pool) :
    ∀ q ∈ annotate 0 (borrowEvents vres w creates p),
      (isCallback q.1 = true → q.2 = 1) ∧ (q.1 = Ev.waitGate → q.2 = 0) := by
  have hsc := scanEvents_callbacks vres p.unlocked
  cases hclv : p.closed
  · rcases hr : (scanIdle vres p.unlocked).1 with o | _ | _
    · simp only [borrowEvents, hclv, Bool.false_eq_true, if_false, hr]
      exact checks_lock_mid_unlock _ hsc
    · simp only [borrowEvents, hclv, Bool.false_eq_true, if_false, hr]
      exact checks_lock_mid_unlock _ hsc
    · intro q hq
      simp only [borrowEvents, hclv, Bool.false_eq_true, if_false, hr] at hq
      rw [annotate] at hq
      simp only [evStep, Nat.zero_add] at hq
      rw [annotate_append, depthAfter_callbacks 1 _ hsc, annotate_append,
        (waitEvents_checks w).2] at hq
      simp only [List.mem_cons, List.mem_append] at hq
      rcases hq with rfl | hq | hq | hq
      · simp [isCallback]
      · exact checks_of_callbacks _ hsc q hq
      · exact (waitEvents_checks w).1 q hq
      · cases creates <;>
          simp only [if_true, if_false, Bool.false_eq_true, annotate, evStep,
            List.mem_cons, List.not_mem_nil, or_false] at hq
        · subst hq
          simp [isCallback]
        · rcases hq with rfl | rfl <;> simp [isCallback]
  · simp only [borrowEvents, hclv, if_true]
    exact checks_lock_mid_unlock [] (by simp)

/-- Every `CleanUp` execution keeps its callbacks at depth 1 and performs
no gate wait. -/
theorem checks_cleanup (e : Nat → Bool) (now : Int) (p : Pool) :
    ∀ q ∈ annotate 0 (cleanUpEvents e now p),
      (isCallback q.1 = true → q.2 = 1) ∧ (q.1 = Ev.waitGate → q.2 = 0) := by
  cases hclv : p.closed
  · simp only [cleanUpEvents, hclv, Bool.false_eq_true, if_false]
    apply checks_lock_mid_unlock
    intro ev hev
    rcases List.mem_append.mp hev with hev | hev
    · rcases List.mem_append.mp hev with hev | hev
      · exact expireEvents_callbacks _ ev hev
      · exact expireEvents_callbacks _ ev hev
    · rw [keepMinIdleEvents] at hev
      split at hev
      · cases hev
      · exact topUpEvents_callbacks e _ _ ev hev
  · simp only [cleanUpEvents, hclv, if_true]
    exact checks_lock_mid_unlock [] (by simp)

/-- Claim C9 (amended).  In every `Borrow`, `Return`, `CleanUp` and closing
execution, the pool's exclusive lock IS held (depth 1) during every
caller-supplied construction, validation and destruction callback — not
released, as the claim demands — while the gate wait in `Borrow`'s
capacity loop is the one suspension performed with the lock released
(depth 0: released before waiting, re-acquired after). -/
theorem c9_amended (vres : Nat → VRes) (e : Nat → Bool) (w : Nat) (creates : Bool)
    (now : Int) (p q r : Pool) :
    (callbacksUnderLock (borrowEvents vres w creates p) = true ∧
     gateWaitOutsideLock (borrowEvents vres w creates p) = true) ∧
    (callbacksUnderLock returnEvents = true ∧
     gateWaitOutsideLock returnEvents = true) ∧
    (callbacksUnderLock (cleanUpEvents e now q) = true ∧
     gateWaitOutsideLock (cleanUpEvents e now q) = true) ∧
    (callbacksUnderLock (closeEvents r) = true ∧
     gateWaitOutsideLock (closeEvents r) = true) :=
  ⟨check_to_bools _ (checks_borrow vres w creates p),
   check_to_bools _ (checks_lock_mid_unlock [] (by simp)),
   check_to_bools _ (checks_cleanup e now q),
   check_to_bools _ (checks_lock_mid_unlock _ (expireEvents_callbacks _))⟩

/-- Claim C9 (counterexample).  The claim states the lock is never held
while invoking a caller-supplied callback.  In the code every callback is
invoked with the mutex held: in a `Borrow` on a pool with one valid idle
resource, the validation callback runs at lock depth 1. -/
theorem c9_counterexample :
    noLockDuringCallbacks (borrowEvents vAllValid 0 false poolOneIdle) = false := by decide

/-! ## Claim C4: at-most-once destruction -/

theorem invB_iff (p : Pool) :
    invB p = true ↔ ((allKeys p).Nodup ∧ ∀ i ∈ allKeys p, i < p.nextId) := by
  simp [invB, List.all_eq_true]

/-- The invariant transfers along a permutation of the tracked identities
(with a possibly larger fresh counter). -/
theorem inv_of_perm {p p' : Pool} (hperm : List.Perm (allKeys p') (allKeys p))
    (hid : p.nextId ≤ p'.nextId)
    (h : (allKeys p).Nodup ∧ ∀ i ∈ allKeys p, i < p.nextId) :
    (allKeys p').Nodup ∧ ∀ i ∈ allKeys p', i < p'.nextId :=
  ⟨hperm.nodup_iff.mpr h.1,
   fun i hi => lt_of_lt_of_le (h.2 i (hperm.subset hi)) hid⟩

/-- The invariant transfers when exactly the old fresh identity is added
and the counter is bumped. -/
theorem inv_fresh {p p' : Pool}
    (hperm : List.Perm (allKeys p') (p.nextId :: allKeys p))
    (hid : p'.nextId = p.nextId + 1)
    (h : (allKeys p).Nodup ∧ ∀ i ∈ allKeys p, i < p.nextId) :
    (allKeys p').Nodup ∧ ∀ i ∈ allKeys p', i < p'.nextId := by
  have hni : p.nextId ∉ allKeys p := fun hm => absurd (h.2 _ hm) (lt_irrefl _)
  constructor
  · exact hperm.nodup_iff.mpr (List.nodup_cons.mpr ⟨hni, h.1⟩)
  · intro i hi
    rcases List.mem_cons.mp (hperm.subset hi) with rfl | hm
    · omega
    · have := h.2 i hm
      omega

/-- Accounting of the idle scan: the scanned keys are exactly the destroyed
ones, the found one (if any), and the remaining ones. -/
theorem scanIdle_keys (vres : Nat → VRes) (l : List (Nat × Int)) :
    keys l = (scanIdle vres l).2.2 ++
      (match (scanIdle vres l).1 with
       | .found o => o :: keys (scanIdle vres l).2.1
       | _ => keys (scanIdle vres l).2.1) := by
  induction l with
  | nil => simp [scanIdle, keys]
  | cons a l ih =>
    obtain ⟨a1, a2⟩ := a
    rcases hv : vres a1 with _ | _ | _
    · simp [scanIdle, hv, keys]
    · simp only [scanIdle, hv, keys, List.map_cons, List.cons_append]
      exact congrArg (List.cons a1) ih
    · simp [scanIdle, hv, keys]

/-- Accounting of one expiry pass: kept keys plus expired keys are a
permutation of the original keys. -/
theorem expirePass_keys_perm (now timeout : Int) (m : List (Nat × Int)) :
    List.Perm (keys (expirePass now timeout m).1 ++ (expirePass now timeout m).2)
      (keys m) := by
  have hcongr : m.filter (fun q => decide (timeout < now - q.2)) =
      m.filter (fun q => !decide (now - q.2 ≤ timeout)) := by
    apply List.filter_congr
    intro a _
    rw [← decide_not]
    exact decide_eq_decide.mpr not_le.symm
  have hbase := (List.filter_append_perm
    (fun q : Nat × Int => decide (now - q.2 ≤ timeout)) m).map Prod.fst
  rw [List.map_append] at hbase
  simp only [expirePass]
  rw [hcongr]
  exact hbase

/-- `Borrow` preserves the identity-tracking invariant. -/
theorem invB_borrow (vres : Nat → VRes) (e : Nat → Bool) (now : Int) (p : Pool)
    (h : invB p = true) : invB (Pool.Borrow vres e now p).2 = true := by
  rw [invB_iff] at h ⊢
  cases hclv : p.closed
  · have hk := scanIdle_keys vres p.unlocked
    rcases hs : scanIdle vres p.unlocked with ⟨r, rem, des⟩
    rw [hs] at hk
    cases r with
    | found o =>
      have hk' : keys p.unlocked = des ++ o :: keys rem := by simpa using hk
      have ho : o ∈ keys p.unlocked := by
        rw [hk']
        simp
      have hol : o ∉ keys p.locked := by
        intro hm
        have hnd := h.1
        simp only [allKeys] at hnd
        exact List.disjoint_of_nodup_append hnd.of_append_left hm ho
      have hins : mapInsert p.locked o now = p.locked ++ [(o, now)] :=
        mapInsert_of_not_mem now hol
      have hB : (Pool.Borrow vres e now p).2 =
          { p with unlocked := rem, locked := p.locked ++ [(o, now)],
                   destroyed := p.destroyed ++ des } := by
        simp [Pool.Borrow, hclv, hs, hins]
      rw [hB]
      refine inv_of_perm ?_ ?_ h
      · refine List.perm_iff_count.mpr fun a => ?_
        have hku := congrArg (List.count a) hk'
        simp only [allKeys, keys, keys_append, List.map_append, List.map_cons,
          List.map_nil, List.count_append, List.count_cons, List.count_nil] at hku ⊢
        omega
      · exact le_refl _
    | verr =>
      have hk' : keys p.unlocked = des ++ keys rem := by simpa using hk
      have hB : (Pool.Borrow vres e now p).2 =
          { p with unlocked := rem, destroyed := p.destroyed ++ des } := by
        simp [Pool.Borrow, hclv, hs]
      rw [hB]
      refine inv_of_perm ?_ ?_ h
      · refine List.perm_iff_count.mpr fun a => ?_
        have hku := congrArg (List.count a) hk'
        simp only [allKeys, keys, List.map_append, List.count_append] at hku ⊢
        omega
      · exact le_refl _
    | exhausted =>
      have hk' : keys p.unlocked = des ++ keys rem := by simpa using hk
      by_cases hcap : p.size ≤ rem.length + p.locked.length
      · have hB : (Pool.Borrow vres e now p).2 =
            { p with unlocked := rem, destroyed := p.destroyed ++ des } := by
          simp [Pool.Borrow, hclv, hs, Pool.objectCount, hcap]
        rw [hB]
        refine inv_of_perm ?_ ?_ h
        · refine List.perm_iff_count.mpr fun a => ?_
          have hku := congrArg (List.count a) hk'
          simp only [allKeys, keys, List.map_append, List.count_append] at hku ⊢
          omega
        · exact le_refl _
      · by_cases hcr : e p.createCount = true
        · have hB : (Pool.Borrow vres e now p).2 =
              { p with unlocked := rem, destroyed := p.destroyed ++ des,
                       createCount := p.createCount + 1 } := by
            simp [Pool.Borrow, hclv, hs, Pool.objectCount, hcap, hcr]
          rw [hB]
          refine inv_of_perm ?_ ?_ h
          · refine List.perm_iff_count.mpr fun a => ?_
            have hku := congrArg (List.count a) hk'
            simp only [allKeys, List.count_append] at hku ⊢
            omega
          · exact le_refl _
        · have hfresh : p.nextId ∉ keys p.locked := by
            intro hm
            exact absurd (h.2 p.nextId (by simp [allKeys, hm])) (lt_irrefl _)
          have hins : mapInsert p.locked p.nextId now = p.locked ++ [(p.nextId, now)] :=
            mapInsert_of_not_mem now hfresh
          have hB : (Pool.Borrow vres e now p).2 =
              { p with unlocked := rem, locked := p.locked ++ [(p.nextId, now)],
                       destroyed := p.destroyed ++ des, nextId := p.nextId + 1,
                       createCount := p.createCount + 1 } := by
            simp [Pool.Borrow, hclv, hs, Pool.objectCount, hcap, hcr, hins]
          rw [hB]
          refine inv_fresh ?_ ?_ h
          · refine List.perm_iff_count.mpr fun a => ?_
            have hku := congrArg (List.count a) hk'
            simp only [allKeys, keys, keys_append, List.map_append, List.map_cons,
              List.map_nil, List.count_append, List.count_cons, List.count_nil] at hku ⊢
            omega
          · rfl
  · simp only [Pool.Borrow, hclv, if_true]
    exact h

/-- `Return` preserves the identity-tracking invariant, provided the
returned identity is currently tracked (the caller discipline `retOk`). -/
theorem invB_return (o : Option Nat) (now : Int) (p : Pool)
    (h : invB p = true) (hok : retOk p (.opReturn o now) = true) :
    invB (Pool.Return o now p).1 = true := by
  rw [invB_iff] at h ⊢
  cases hclv : p.closed
  · cases o with
    | none => simpa [Pool.Return, hclv] using h
    | some o =>
      have htr : o ∈ keys p.locked ∨ o ∈ keys p.unlocked := by
        simp only [retOk, hclv, Bool.false_eq_true, false_or, Bool.or_eq_true] at hok
        rcases hok with hok | hok
        · exact Or.inl (by simpa using hok)
        · exact Or.inr (by simpa using hok)
      have hnd := h.1
      simp only [allKeys] at hnd
      have hndL : (keys p.locked).Nodup := hnd.of_append_left.of_append_left
      have hndU : (keys p.unlocked).Nodup := hnd.of_append_left.of_append_right
      have hB : (Pool.Return (some o) now p).1 =
          { p with locked := mapDelete p.locked o,
                   unlocked := mapDelete p.unlocked o ++ [(o, now)] } := by
        simp [Pool.Return, hclv, mapInsert]
      rw [hB]
      refine inv_of_perm ?_ ?_ h
      · refine List.perm_iff_count.mpr fun a => ?_
        rcases htr with hmem | hmem
        · have hdel := (keys_mapDelete_perm hndL hmem).count_eq a
          have hdelU : mapDelete p.unlocked o = p.unlocked := mapDelete_eq_self
            (fun hm => List.disjoint_of_nodup_append hnd.of_append_left hmem hm)
          rw [hdelU]
          simp only [allKeys, keys, List.map_append, List.map_cons, List.map_nil,
            List.count_append, List.count_cons, List.count_nil] at hdel ⊢
          omega
        · have hdel := (keys_mapDelete_perm hndU hmem).count_eq a
          have hdelL : mapDelete p.locked o = p.locked := mapDelete_eq_self
            (fun hm => List.disjoint_of_nodup_append hnd.of_append_left hm hmem)
          rw [hdelL]
          simp only [allKeys, keys, List.map_append, List.map_cons, List.map_nil,
            List.count_append, List.count_cons, List.count_nil] at hdel ⊢
          omega
      · exact le_refl _
  · simpa [Pool.Return, hclv] using h

/-- The top-up loop preserves the identity-tracking invariant. -/
theorem invB_keepMinIdleLoop (e : Nat → Bool) (now : Int) (n : Nat) (p : Pool)
    (h : invB p = true) : invB (keepMinIdleLoop e now n p).1 = true := by
  induction n generalizing p with
  | zero => simpa [keepMinIdleLoop] using h
  | succ n ih =>
    by_cases hc : e p.createCount = true
    · simp only [keepMinIdleLoop, hc, if_true]
      rw [invB_iff] at h ⊢
      simpa [allKeys] using h
    · simp only [keepMinIdleLoop, hc, Bool.false_eq_true, if_false]
      apply ih
      rw [invB_iff] at h ⊢
      have hfreshU : p.nextId ∉ keys p.unlocked := fun hm =>
        absurd (h.2 p.nextId (by simp [allKeys, hm])) (lt_irrefl _)
      have hins := mapInsert_of_not_mem now hfreshU
      refine inv_fresh ?_ ?_ h
      · refine List.perm_iff_count.mpr fun a => ?_
        simp only [allKeys, hins, keys, List.map_append, List.map_cons, List.map_nil,
          List.count_append, List.count_cons, List.count_nil]
        omega
      · rfl

/-- `keepMinIdle` preserves the identity-tracking invariant. -/
theorem invB_keepMinIdle (e : Nat → Bool) (now : Int) (p : Pool)
    (h : invB p = true) : invB (p.keepMinIdle e now).1 = true := by
  rw [Pool.keepMinIdle]
  split
  · exact h
  · exact invB_keepMinIdleLoop e now _ p h

/-- `CleanUp` preserves the identity-tracking invariant. -/
theorem invB_cleanup (e : Nat → Bool) (now : Int) (p : Pool)
    (h : invB p = true) : invB (Pool.CleanUp e now p).state = true := by
  cases hclv : p.closed
  · have hp1 : invB { p with unlocked := (expirePass now p.idleTimeout p.unlocked).1, locked := (expirePass now p.borrowTimeout p.locked).1, destroyed := p.destroyed ++ (expirePass now p.idleTimeout p.unlocked).2 ++ (expirePass now p.borrowTimeout p.locked).2 } = true := by
      rw [invB_iff] at h ⊢
      refine inv_of_perm ?_ ?_ h
      · refine List.perm_iff_count.mpr fun a => ?_
        have h1 := (expirePass_keys_perm now p.idleTimeout p.unlocked).count_eq a
        have h2 := (expirePass_keys_perm now p.borrowTimeout p.locked).count_eq a
        simp only [allKeys, keys, List.map_append, List.count_append] at h1 h2 ⊢
        omega
      · exact le_refl _
    have hst : (Pool.CleanUp e now p).state =
        (Pool.keepMinIdle e now { p with unlocked := (expirePass now p.idleTimeout p.unlocked).1, locked := (expirePass now p.borrowTimeout p.locked).1, destroyed := p.destroyed ++ (expirePass now p.idleTimeout p.unlocked).2 ++ (expirePass now p.borrowTimeout p.locked).2 }).1 := by
      simp only [Pool.CleanUp, hclv, Bool.false_eq_true, if_false]
      split <;> rfl
    rw [hst]
    exact invB_keepMinIdle e now _ hp1
  · simpa [Pool.CleanUp, hclv] using h

/-- Closing preserves the identity-tracking invariant. -/
theorem invB_close (p : Pool) (h : invB p = true) : invB p.close = true := by
  rw [invB_iff] at h ⊢
  refine inv_of_perm ?_ ?_ h
  · refine List.perm_iff_count.mpr fun a => ?_
    simp only [Pool.close, allKeys, keys, List.map_append, List.map_nil,
      List.count_append, List.count_nil]
    omega
  · exact le_refl _

/-- One step of any operation preserves the invariant under the caller
discipline. -/
theorem invB_step (p : Pool) (op : Op) (h : invB p = true) (hok : retOk p op = true) :
    invB (Op.step p op) = true := by
  cases op with
  | opBorrow vres e now => exact invB_borrow vres e now p h
  | opReturn o now => exact invB_return o now p h hok
  | opCleanUp e now => exact invB_cleanup e now p h
  | opClose => exact invB_close p h

/-- Any valid operation sequence preserves the invariant. -/
theorem invB_run (ops : List Op) (p : Pool) (h : invB p = true)
    (hv : validTrace ops p = true) : invB (run ops p) = true := by
  induction ops generalizing p with
  | nil => simpa [run] using h
  | cons op ops ih =>
    simp only [validTrace, Bool.and_eq_true] at hv
    have h1 := invB_step p op h hv.1
    simpa only [run, List.foldl_cons] using ih (Op.step p op) h1 hv.2

/-- Claim C4 (counterexample).  The claim states the destruction callback is
invoked at most once per instance and a destroyed instance is never
re-tracked.  In the code a `Return` of a force-reclaimed resource re-inserts
it: construct an empty pool, borrow (creates id 0), let `CleanUp` force-
reclaim it past the borrow timeout (destroy no. 1), `Return` it (re-tracked
as idle), and let `CleanUp` expire it again (destroy no. 2): the destruction
record is `[0, 0]`. -/
theorem c4_counterexample :
    (Pool.New eNone 0 5 0 30 30).map
      (fun p => (run [.opBorrow vAllValid eNone 0, .opCleanUp eNone 100,
                      .opReturn (some 0) 100, .opCleanUp eNone 200] p).destroyed) =
      some [0, 0] := by decide

/-- Claim C4 (amended).  For every operation sequence in which each
`Return` passes an identity the pool still tracks (or `nil`, or the pool is
closed), starting from any state satisfying the identity-tracking
invariant: the destruction callback is invoked at most once per resource
instance (the destruction record has no duplicates), and no destroyed
instance is still tracked — so none is ever revalidated, reused or
re-tracked after destruction. -/
theorem c4_amended (ops : List Op) (p : Pool) (hInv : invB p = true)
    (hv : validTrace ops p = true) :
    (run ops p).destroyed.Nodup ∧
    ∀ i ∈ (run ops p).destroyed,
      i ∉ keys (run ops p).locked ∧ i ∉ keys (run ops p).unlocked := by
  have h := invB_run ops p hInv hv
  rw [invB_iff] at h
  have hnd := h.1
  simp only [allKeys] at hnd
  refine ⟨hnd.of_append_right, ?_⟩
  intro i hi
  constructor
  · intro hiL
    exact List.disjoint_of_nodup_append hnd
      (List.mem_append_left _ hiL) hi
  · intro hiU
    exact List.disjoint_of_nodup_append hnd
      (List.mem_append_right _ hiU) hi

/-- Claim C4 (witness): the amended statement on a concrete valid trace
(borrow, return of the borrowed resource, close). -/
theorem c4_witness :
    invB poolTwoIdle = true ∧
    validTrace [.opBorrow vAllValid eNone 3, .opReturn (some 0) 5, .opClose]
      poolTwoIdle = true ∧
    ((run [.opBorrow vAllValid eNone 3, .opReturn (some 0) 5, .opClose]
        poolTwoIdle).destroyed.Nodup ∧
     ∀ i ∈ (run [.opBorrow vAllValid eNone 3, .opReturn (some 0) 5, .opClose]
        poolTwoIdle).destroyed,
       i ∉ keys (run [.opBorrow vAllValid eNone 3, .opReturn (some 0) 5, .opClose]
         poolTwoIdle).locked ∧
       i ∉ keys (run [.opBorrow vAllValid eNone 3, .opReturn (some 0) 5, .opClose]
         poolTwoIdle).unlocked) :=
  ⟨by decide, by decide,
   c4_amended [.opBorrow vAllValid eNone 3, .opReturn (some 0) 5, .opClose]
     poolTwoIdle (by decide) (by decide)⟩
